import Mathlib

/-!
Verification of the suffix-array query engine in `src/wasm/libsais_wasm.c`.

The C code is shallowly embedded: byte buffers become `List Nat`, the
`SaisIndex` struct becomes a Lean structure, null pointers become `Option`,
`int32_t` parameters at the exported boundary become `Int`, and the
binary-search / enumeration loops become well-founded recursive functions.
The external collaborators (`libsais`, `memcmp`) are modelled from their
documented contracts: `libsais` is a parameter of `create_index`, and
`memcmp` returns the sign of the first differing byte pair (the C standard
only fixes the sign of the `memcmp` result, and every caller in this file
inspects only the sign).  The `int32_t` result buffer written by `find_all`
is modelled as the list of values written, in order; the C return value is
the length of that list.
-/

namespace LibsaisWasm

/-- Model of C `memcmp(a, b, len)` on byte buffers: compares the first
`len` bytes and returns the sign of the first difference (the C standard
fixes only the sign).  Reading past the end of a buffer is undefined
behaviour in C; the model returns 0 there, and every lemma that uses
`memcmp` assumes `len` is within both buffers. -/
def memcmp : List Nat → List Nat → Nat → Int
  | _, _, 0 => 0
  | a :: as, b :: bs, len + 1 =>
      if a < b then -1 else if b < a then 1 else memcmp as bs len
  | _, _, _ + 1 => 0

/-- The `SaisIndex` struct of the C source: buffer data, suffix array,
and the stored buffer length. -/
structure SaisIndex where
  data : List Nat
  sa : List Nat
  length : Nat
  deriving DecidableEq, Repr

/-- Embedding of C `compare_suffix`: compare the suffix of the indexed
buffer starting at `pos` with `needle` (of declared length `needle_len`),
treating a suffix that the needle extends as "less than" and a suffix that
the needle is a prefix of as "equal". -/
def compare_suffix (index : SaisIndex) (pos : Nat) (needle : List Nat)
    (needle_len : Nat) : Int :=
  let remaining := index.length - pos
  let compare_len := if needle_len < remaining then needle_len else remaining
  let cmp := memcmp (index.data.drop pos) needle compare_len
  if cmp ≠ 0 then cmp
  else if remaining < needle_len then -1 else 0

/-- The `while (lo < hi)` loop of C `lower_bound`. -/
def lower_bound_loop (index : SaisIndex) (needle : List Nat)
    (needle_len : Nat) (lo hi : Nat) : Nat :=
  if h : lo < hi then
    let mid := lo + (hi - lo) / 2
    let suffix_pos := index.sa.getD mid 0
    if compare_suffix index suffix_pos needle needle_len < 0 then
      lower_bound_loop index needle needle_len (mid + 1) hi
    else
      lower_bound_loop index needle needle_len lo mid
  else
    lo
termination_by hi - lo
decreasing_by
  · omega
  · omega

/-- Embedding of C `lower_bound`: first suffix rank whose suffix is not
less than the needle. -/
def lower_bound (index : SaisIndex) (needle : List Nat)
    (needle_len : Nat) : Nat :=
  lower_bound_loop index needle needle_len 0 index.length

/-- The `while (lo < hi)` loop of C `upper_bound`. -/
def upper_bound_loop (index : SaisIndex) (needle : List Nat)
    (needle_len : Nat) (lo hi : Nat) : Nat :=
  if h : lo < hi then
    let mid := lo + (hi - lo) / 2
    let suffix_pos := index.sa.getD mid 0
    if compare_suffix index suffix_pos needle needle_len ≤ 0 then
      upper_bound_loop index needle needle_len (mid + 1) hi
    else
      upper_bound_loop index needle needle_len lo mid
  else
    lo
termination_by hi - lo
decreasing_by
  · omega
  · omega

/-- Embedding of C `upper_bound`: first suffix rank whose suffix is
strictly greater than the needle. -/
def upper_bound (index : SaisIndex) (needle : List Nat)
    (needle_len : Nat) : Nat :=
  upper_bound_loop index needle needle_len 0 index.length

/-- Embedding of C `count_matches`.  Null pointers are `none`; the
`int32_t` needle length keeps its sign so the `needle_len <= 0` guard is
faithful. -/
def count_matches (index : Option SaisIndex) (needle : Option (List Nat))
    (needle_len : Int) : Int :=
  match index, needle with
  | some idx, some ndl =>
      if needle_len ≤ 0 then 0
      else
        (upper_bound idx ndl needle_len.toNat : Int) -
          (lower_bound idx ndl needle_len.toNat : Int)
  | _, _ => 0

/-- The collection loop of C `find_all`
(`for (i = lo; i < hi && count < limit; i++)`): returns the list of
positions written to the result buffer, in order; `limit` is the remaining
write budget. -/
def find_all_loop (index : SaisIndex) (needle_len : Nat) (start endv : Int)
    (limit : Nat) (i hi : Nat) : List Int :=
  if h : i < hi then
    if 0 < limit then
      let pos : Int := (index.sa.getD i 0 : Nat)
      if start ≤ pos ∧ pos + (needle_len : Int) ≤ endv then
        pos :: find_all_loop index needle_len start endv (limit - 1) (i + 1) hi
      else
        find_all_loop index needle_len start endv limit (i + 1) hi
    else []
  else []
termination_by hi - i
decreasing_by
  · omega
  · omega

/-- Embedding of C `find_all`.  `result_present` models the non-nullness
of the `result_buffer` pointer; the returned list is the sequence of
values written to the buffer (so the C return value is its length). -/
def find_all (index : Option SaisIndex) (needle : Option (List Nat))
    (needle_len : Int) (start endv : Int) (max_count : Int)
    (result_present : Bool) (buffer_capacity : Int) : List Int :=
  match index, needle with
  | some idx, some ndl =>
      if needle_len ≤ 0 ∨ result_present = false ∨ buffer_capacity ≤ 0 then []
      else
        let endv := if endv < 0 ∨ (idx.length : Int) < endv then (idx.length : Int) else endv
        let start := if start < 0 then 0 else start
        if start ≥ endv then []
        else
          let lo := lower_bound idx ndl needle_len.toNat
          let hi := upper_bound idx ndl needle_len.toNat
          let limit := if 0 < max_count ∧ max_count < buffer_capacity then max_count else buffer_capacity
          find_all_loop idx needle_len.toNat start endv limit.toNat lo hi
  | _, _ => []

/-- Embedding of C `create_index`.  The external suffix sorter `libsais`
is a parameter `sais`, returning `none` on a non-zero status; allocation
failures are not modelled (they would also yield `none`). -/
def create_index (sais : List Nat → Option (List Nat))
    (buffer : List Nat) (length : Int) : Option SaisIndex :=
  if length ≤ 0 then none
  else
    match sais (buffer.take length.toNat) with
    | none => none
    | some sa => some ⟨buffer.take length.toNat, sa, length.toNat⟩

/-- Embedding of C `get_index_length`. -/
def get_index_length (index : Option SaisIndex) : Int :=
  match index with
  | some idx => (idx.length : Int)
  | none => 0

/-- Spec-side three-way byte-wise lexicographic comparison of two byte
sequences (a strict prefix sorts first). -/
def listCmp : List Nat → List Nat → Int
  | [], [] => 0
  | [], _ :: _ => -1
  | _ :: _, [] => 1
  | a :: as, b :: bs =>
      if a < b then -1 else if b < a then 1 else listCmp as bs

/-- Spec-side form of the §4.2 suffix-vs-needle comparator: a suffix the
needle extends is less, a suffix the needle is a prefix of is
match-compatible (0). -/
def csp : List Nat → List Nat → Int
  | _, [] => 0
  | [], _ :: _ => -1
  | a :: as, b :: bs =>
      if a < b then -1 else if b < a then 1 else csp as bs

/-- `p` is a starting position of a full occurrence of `needle` in
`data`: the needle fits and matches byte-wise. -/
def occursAt (data needle : List Nat) (p : Nat) : Prop :=
  p + needle.length ≤ data.length ∧ (data.drop p).take needle.length = needle

/-- Modelled from the spec: the number of starting positions of `needle`
in `data` computed by a naive linear scan (positions `p` with
`p + len(needle) ≤ n` and `data[p .. p+len(needle)) = needle`). -/
def naiveCount (data needle : List Nat) : Nat :=
  (List.range (data.length + 1)).countP
    (fun p => decide (p + needle.length ≤ data.length ∧
      (data.drop p).take needle.length = needle))

/-- A well-formed index: the stored length is the buffer length, the
suffix array is a permutation of `[0, n)`, and it lists the suffixes in
strictly increasing byte-wise lexicographic order. -/
def ValidIndex (idx : SaisIndex) : Prop :=
  idx.length = idx.data.length ∧
  idx.sa.Perm (List.range idx.data.length) ∧
  idx.sa.Pairwise (fun p q => listCmp (idx.data.drop p) (idx.data.drop q) < 0)

/-- The comparator seen by the binary searches, as a function of the
suffix rank. -/
def rankCmp (idx : SaisIndex) (needle : List Nat) (needle_len : Nat)
    (k : Nat) : Int :=
  compare_suffix idx (idx.sa.getD k 0) needle needle_len

/-- The byte buffer `"banana"`. -/
def bananaData : List Nat := [98, 97, 110, 97, 110, 97]

/-- A concrete valid index over `"banana"` (suffix array of banana). -/
def bananaIdx : SaisIndex := ⟨bananaData, [5, 3, 1, 0, 4, 2], 6⟩

/-- The byte buffer `"aaaa"`. -/
def aaaaData : List Nat := [97, 97, 97, 97]

/-- A concrete valid index over `"aaaa"`. -/
def aaaaIdx : SaisIndex := ⟨aaaaData, [3, 2, 1, 0], 4⟩

instance (idx : SaisIndex) : Decidable (ValidIndex idx) := by
  unfold ValidIndex
  infer_instance

instance (data needle : List Nat) (p : Nat) : Decidable (occursAt data needle p) := by
  unfold occursAt
  infer_instance

/-! ### Properties of the byte-wise comparators -/

theorem listCmp_eq_zero_iff : ∀ a b : List Nat, listCmp a b = 0 ↔ a = b := by
  intro a
  induction a with
  | nil =>
    intro b
    cases b <;> simp [listCmp]
  | cons x xs ih =>
    intro b
    cases b with
    | nil => simp [listCmp]
    | cons y ys =>
      by_cases hxy : x < y
      · simp [listCmp, hxy]
        omega
      · by_cases hyx : y < x
        · simp [listCmp, hxy, hyx]
          omega
        · have hx : x = y := by omega
          simp [listCmp, hxy, hyx, hx, ih ys]

theorem listCmp_values : ∀ a b : List Nat,
    listCmp a b = -1 ∨ listCmp a b = 0 ∨ listCmp a b = 1 := by
  intro a
  induction a with
  | nil =>
    intro b
    cases b <;> simp [listCmp]
  | cons x xs ih =>
    intro b
    cases b with
    | nil => simp [listCmp]
    | cons y ys =>
      by_cases hxy : x < y
      · simp [listCmp, hxy]
      · by_cases hyx : y < x
        · simp [listCmp, hxy, hyx]
        · simpa [listCmp, hxy, hyx] using ih ys

theorem listCmp_cons_neg (x y : Nat) (xs ys : List Nat) :
    listCmp (x :: xs) (y :: ys) < 0 ↔ x < y ∨ (x = y ∧ listCmp xs ys < 0) := by
  by_cases hxy : x < y
  · simp [listCmp, hxy]
  · by_cases hyx : y < x
    · simp [listCmp, hxy, hyx]
      omega
    · have hx : x = y := by omega
      simp [listCmp, hxy, hyx, hx]

theorem listCmp_neg_trans :
    ∀ a b c : List Nat, listCmp a b < 0 → listCmp b c < 0 → listCmp a c < 0 := by
  intro a
  induction a with
  | nil =>
    intro b c hab hbc
    cases b with
    | nil => simp [listCmp] at hab
    | cons y ys =>
      cases c with
      | nil => simp [listCmp] at hbc
      | cons z zs => simp [listCmp]
  | cons x xs ih =>
    intro b c hab hbc
    cases b with
    | nil => simp [listCmp] at hab
    | cons y ys =>
      cases c with
      | nil => simp [listCmp] at hbc
      | cons z zs =>
        rw [listCmp_cons_neg] at hab hbc ⊢
        rcases hab with hxy | ⟨hxy, hab⟩
        · rcases hbc with hyz | ⟨hyz, _⟩
          · exact Or.inl (by omega)
          · exact Or.inl (by omega)
        · rcases hbc with hyz | ⟨hyz, hbc⟩
          · exact Or.inl (by omega)
          · exact Or.inr ⟨by omega, ih ys zs hab hbc⟩

theorem csp_values : ∀ s ν : List Nat, csp s ν = -1 ∨ csp s ν = 0 ∨ csp s ν = 1 := by
  intro s
  induction s with
  | nil =>
    intro ν
    cases ν <;> simp [csp]
  | cons a as ih =>
    intro ν
    cases ν with
    | nil => simp [csp]
    | cons b bs =>
      by_cases hab : a < b
      · simp [csp, hab]
      · by_cases hba : b < a
        · simp [csp, hab, hba]
        · simpa [csp, hab, hba] using ih bs

theorem csp_eq_zero_iff : ∀ ν s : List Nat,
    csp s ν = 0 ↔ ν.length ≤ s.length ∧ s.take ν.length = ν := by
  intro ν
  induction ν with
  | nil =>
    intro s
    cases s <;> simp [csp]
  | cons b bs ih =>
    intro s
    cases s with
    | nil => simp [csp]
    | cons a as =>
      by_cases hab : a < b
      · simp [csp, hab]
        omega
      · by_cases hba : b < a
        · simp [csp, hab, hba]
          omega
        · have hx : a = b := by omega
          simp [csp, hab, hba, hx, ih as]

theorem csp_neg_iff : ∀ s ν : List Nat, csp s ν < 0 ↔ listCmp s ν < 0 := by
  intro s
  induction s with
  | nil =>
    intro ν
    cases ν <;> simp [csp, listCmp]
  | cons a as ih =>
    intro ν
    cases ν with
    | nil => simp [csp, listCmp]
    | cons b bs =>
      by_cases hab : a < b
      · simp [csp, listCmp, hab]
      · by_cases hba : b < a
        · simp [csp, listCmp, hab, hba]
        · simpa [csp, listCmp, hab, hba] using ih bs

theorem csp_nonpos_of_listCmp_neg_of_csp_zero :
    ∀ ν s t : List Nat, listCmp s t < 0 → csp t ν = 0 → csp s ν ≤ 0 := by
  intro ν
  induction ν with
  | nil =>
    intro s t _ _
    simp [csp]
  | cons b bs ih =>
    intro s t hst ht
    cases t with
    | nil => simp [csp] at ht
    | cons c cs =>
      have hcb : c = b ∧ csp cs bs = 0 := by
        by_cases h1 : c < b
        · simp [csp, h1] at ht
        · by_cases h2 : b < c
          · simp [csp, h1, h2] at ht
          · exact ⟨by omega, by simpa [csp, h1, h2] using ht⟩
      cases s with
      | nil => simp [csp]
      | cons a as =>
        rw [listCmp_cons_neg] at hst
        rcases hst with hac | ⟨hac, hst⟩
        · have hb : a < b := by omega
          simp [csp, hb]
        · have hab : a = b := by omega
          have := ih as cs hst hcb.2
          subst hab
          simpa [csp, lt_irrefl] using this

theorem csp_nonpos_mono (s t ν : List Nat) (hst : listCmp s t < 0)
    (ht : csp t ν ≤ 0) : csp s ν ≤ 0 := by
  rcases csp_values t ν with h | h | h
  · have : csp t ν < 0 := by omega
    have : listCmp t ν < 0 := (csp_neg_iff t ν).1 this
    have : listCmp s ν < 0 := listCmp_neg_trans s t ν hst this
    have : csp s ν < 0 := (csp_neg_iff s ν).2 this
    omega
  · exact csp_nonpos_of_listCmp_neg_of_csp_zero ν s t hst h
  · omega

theorem csp_neg_mono (s t ν : List Nat) (hst : listCmp s t < 0)
    (ht : csp t ν < 0) : csp s ν < 0 := by
  have := listCmp_neg_trans s t ν hst ((csp_neg_iff t ν).1 ht)
  exact (csp_neg_iff s ν).2 this

theorem memcmp_eq_listCmp :
    ∀ (m : Nat) (a b : List Nat), m ≤ a.length → m ≤ b.length →
      memcmp a b m = listCmp (a.take m) (b.take m) := by
  intro m
  induction m with
  | zero =>
    intro a b _ _
    simp [memcmp, listCmp]
  | succ k ih =>
    intro a b ha hb
    cases a with
    | nil => simp at ha
    | cons x xs =>
      cases b with
      | nil => simp at hb
      | cons y ys =>
        by_cases hxy : x < y
        · simp [memcmp, listCmp, hxy]
        · by_cases hyx : y < x
          · simp [memcmp, listCmp, hxy, hyx]
          · simp only [memcmp, listCmp, if_neg hxy, if_neg hyx]
            exact ih xs ys (by simpa using ha) (by simpa using hb)

theorem compare_aux :
    ∀ (s ν : List Nat) (len : Nat), len ≤ ν.length →
      (if memcmp s ν (if len < s.length then len else s.length) ≠ 0
        then memcmp s ν (if len < s.length then len else s.length)
        else if s.length < len then -1 else 0) = csp s (ν.take len) := by
  intro s
  induction s with
  | nil =>
    intro ν len hlen
    cases len with
    | zero => simp [memcmp, csp]
    | succ k =>
      cases ν with
      | nil => simp at hlen
      | cons v vs => simp [memcmp, csp]
  | cons a as ih =>
    intro ν len hlen
    cases len with
    | zero => simp [memcmp, csp]
    | succ k =>
      cases ν with
      | nil => simp at hlen
      | cons b bs =>
        have hm : (if k + 1 < as.length + 1 then k + 1 else as.length + 1) =
            (if k < as.length then k else as.length) + 1 := by
          by_cases hk : k < as.length <;> simp [hk]
        simp only [List.length_cons, hm, List.take_succ_cons]
        by_cases hab : a < b
        · simp [memcmp, csp, hab]
        · by_cases hba : b < a
          · simp [memcmp, csp, hab, hba]
          · have hrec := ih bs k (by simpa using hlen)
            simp only [memcmp, csp, if_neg hab, if_neg hba,
              Nat.add_lt_add_iff_right]
            exact hrec

theorem compare_suffix_eq_csp (idx : SaisIndex) (pos : Nat) (needle : List Nat)
    (len : Nat) (h1 : idx.length = idx.data.length) (h2 : len ≤ needle.length) :
    compare_suffix idx pos needle len = csp (idx.data.drop pos) (needle.take len) := by
  have hrem : idx.length - pos = (idx.data.drop pos).length := by
    simp [h1]
  simp only [compare_suffix, hrem]
  exact compare_aux (idx.data.drop pos) needle len h2

/-! ### Consequences of index validity -/

theorem valid_sa_length (idx : SaisIndex) (hv : ValidIndex idx) :
    idx.sa.length = idx.data.length := by
  simpa using hv.2.1.length_eq

theorem valid_sa_getD_lt (idx : SaisIndex) (hv : ValidIndex idx) (k : Nat)
    (hk : k < idx.sa.length) : idx.sa.getD k 0 < idx.data.length := by
  rw [List.getD_eq_getElem idx.sa 0 hk]
  have hmem : idx.sa[k] ∈ idx.sa := List.getElem_mem hk
  simpa [List.mem_range] using hv.2.1.mem_iff.1 hmem

theorem valid_sorted_getD (idx : SaisIndex) (hv : ValidIndex idx) (i j : Nat)
    (hij : i < j) (hj : j < idx.sa.length) :
    listCmp (idx.data.drop (idx.sa.getD i 0)) (idx.data.drop (idx.sa.getD j 0)) < 0 := by
  have hi : i < idx.sa.length := lt_trans hij hj
  rw [List.getD_eq_getElem idx.sa 0 hi, List.getD_eq_getElem idx.sa 0 hj]
  exact List.pairwise_iff_getElem.1 hv.2.2 i j hi hj hij

theorem rankCmp_eq_csp (idx : SaisIndex) (ndl : List Nat) (len : Nat)
    (hv : ValidIndex idx) (hlen : len ≤ ndl.length) (k : Nat) :
    rankCmp idx ndl len k = csp (idx.data.drop (idx.sa.getD k 0)) (ndl.take len) :=
  compare_suffix_eq_csp idx (idx.sa.getD k 0) ndl len hv.1 hlen

theorem rankCmp_neg_mono (idx : SaisIndex) (ndl : List Nat) (len : Nat)
    (hv : ValidIndex idx) (hlen : len ≤ ndl.length) :
    ∀ i j, i ≤ j → j < idx.length → rankCmp idx ndl len j < 0 →
      rankCmp idx ndl len i < 0 := by
  intro i j hij hj hcj
  rcases Nat.eq_or_lt_of_le hij with rfl | hlt
  · exact hcj
  · have hjn : j < idx.sa.length := by
      rw [valid_sa_length idx hv, ← hv.1]
      exact hj
    have hsort := valid_sorted_getD idx hv i j hlt hjn
    rw [rankCmp_eq_csp idx ndl len hv hlen] at hcj ⊢
    exact csp_neg_mono _ _ _ hsort hcj

theorem rankCmp_nonpos_mono (idx : SaisIndex) (ndl : List Nat) (len : Nat)
    (hv : ValidIndex idx) (hlen : len ≤ ndl.length) :
    ∀ i j, i ≤ j → j < idx.length → rankCmp idx ndl len j ≤ 0 →
      rankCmp idx ndl len i ≤ 0 := by
  intro i j hij hj hcj
  rcases Nat.eq_or_lt_of_le hij with rfl | hlt
  · exact hcj
  · have hjn : j < idx.sa.length := by
      rw [valid_sa_length idx hv, ← hv.1]
      exact hj
    have hsort := valid_sorted_getD idx hv i j hlt hjn
    rw [rankCmp_eq_csp idx ndl len hv hlen] at hcj ⊢
    exact csp_nonpos_mono _ _ _ hsort hcj

/-! ### Binary search loops -/

theorem lower_bound_loop_eq (idx : SaisIndex) (ndl : List Nat) (len lo hi : Nat) :
    lower_bound_loop idx ndl len lo hi =
      if lo < hi then
        (if compare_suffix idx (idx.sa.getD (lo + (hi - lo) / 2) 0) ndl len < 0 then
          lower_bound_loop idx ndl len (lo + (hi - lo) / 2 + 1) hi
        else
          lower_bound_loop idx ndl len lo (lo + (hi - lo) / 2))
      else lo := by
  rw [lower_bound_loop]
  split <;> rfl

theorem upper_bound_loop_eq (idx : SaisIndex) (ndl : List Nat) (len lo hi : Nat) :
    upper_bound_loop idx ndl len lo hi =
      if lo < hi then
        (if compare_suffix idx (idx.sa.getD (lo + (hi - lo) / 2) 0) ndl len ≤ 0 then
          upper_bound_loop idx ndl len (lo + (hi - lo) / 2 + 1) hi
        else
          upper_bound_loop idx ndl len lo (lo + (hi - lo) / 2))
      else lo := by
  rw [upper_bound_loop]
  split <;> rfl

theorem lower_bound_loop_le (idx : SaisIndex) (ndl : List Nat) (len : Nat) :
    ∀ (d lo hi : Nat), hi - lo ≤ d → lo ≤ hi →
      lo ≤ lower_bound_loop idx ndl len lo hi ∧
      lower_bound_loop idx ndl len lo hi ≤ hi := by
  intro d
  induction d with
  | zero =>
    intro lo hi hd hlh
    rw [lower_bound_loop_eq, if_neg (by omega : ¬ lo < hi)]
    omega
  | succ d ih =>
    intro lo hi hd hlh
    by_cases h : lo < hi
    · rw [lower_bound_loop_eq, if_pos h]
      by_cases hc : compare_suffix idx (idx.sa.getD (lo + (hi - lo) / 2) 0) ndl len < 0
      · rw [if_pos hc]
        have := ih (lo + (hi - lo) / 2 + 1) hi (by omega) (by omega)
        omega
      · rw [if_neg hc]
        have := ih lo (lo + (hi - lo) / 2) (by omega) (by omega)
        omega
    · rw [lower_bound_loop_eq, if_neg h]
      omega

theorem upper_bound_loop_le (idx : SaisIndex) (ndl : List Nat) (len : Nat) :
    ∀ (d lo hi : Nat), hi - lo ≤ d → lo ≤ hi →
      lo ≤ upper_bound_loop idx ndl len lo hi ∧
      upper_bound_loop idx ndl len lo hi ≤ hi := by
  intro d
  induction d with
  | zero =>
    intro lo hi hd hlh
    rw [upper_bound_loop_eq, if_neg (by omega : ¬ lo < hi)]
    omega
  | succ d ih =>
    intro lo hi hd hlh
    by_cases h : lo < hi
    · rw [upper_bound_loop_eq, if_pos h]
      by_cases hc : compare_suffix idx (idx.sa.getD (lo + (hi - lo) / 2) 0) ndl len ≤ 0
      · rw [if_pos hc]
        have := ih (lo + (hi - lo) / 2 + 1) hi (by omega) (by omega)
        omega
      · rw [if_neg hc]
        have := ih lo (lo + (hi - lo) / 2) (by omega) (by omega)
        omega
    · rw [upper_bound_loop_eq, if_neg h]
      omega

theorem lower_bound_loop_spec (idx : SaisIndex) (ndl : List Nat) (len : Nat)
    (hmono : ∀ i j, i ≤ j → j < idx.length → rankCmp idx ndl len j < 0 →
      rankCmp idx ndl len i < 0) :
    ∀ (d lo hi : Nat), hi - lo ≤ d → lo ≤ hi → hi ≤ idx.length →
      (∀ k, k < lo → rankCmp idx ndl len k < 0) →
      (∀ k, hi ≤ k → k < idx.length → 0 ≤ rankCmp idx ndl len k) →
      (∀ k, k < lower_bound_loop idx ndl len lo hi → rankCmp idx ndl len k < 0) ∧
      (∀ k, lower_bound_loop idx ndl len lo hi ≤ k → k < idx.length →
        0 ≤ rankCmp idx ndl len k) := by
  intro d
  induction d with
  | zero =>
    intro lo hi hd hlh hhn hlow hhigh
    rw [lower_bound_loop_eq, if_neg (by omega : ¬ lo < hi)]
    exact ⟨hlow, fun k hk hkn => hhigh k (by omega) hkn⟩
  | succ d ih =>
    intro lo hi hd hlh hhn hlow hhigh
    by_cases h : lo < hi
    · rw [lower_bound_loop_eq, if_pos h]
      by_cases hc : compare_suffix idx (idx.sa.getD (lo + (hi - lo) / 2) 0) ndl len < 0
      · rw [if_pos hc]
        have hcm : rankCmp idx ndl len (lo + (hi - lo) / 2) < 0 := hc
        apply ih (lo + (hi - lo) / 2 + 1) hi (by omega) (by omega) hhn
        · intro k hk
          exact hmono k (lo + (hi - lo) / 2) (by omega) (by omega) hcm
        · exact hhigh
      · rw [if_neg hc]
        have hcm : 0 ≤ rankCmp idx ndl len (lo + (hi - lo) / 2) := Int.not_lt.mp hc
        apply ih lo (lo + (hi - lo) / 2) (by omega) (by omega) (by omega) hlow
        intro k hk hkn
        by_contra hneg
        have hklt : rankCmp idx ndl len k < 0 := by omega
        have := hmono (lo + (hi - lo) / 2) k hk hkn hklt
        omega
    · rw [lower_bound_loop_eq, if_neg h]
      exact ⟨hlow, fun k hk hkn => hhigh k (by omega) hkn⟩

theorem upper_bound_loop_spec (idx : SaisIndex) (ndl : List Nat) (len : Nat)
    (hmono : ∀ i j, i ≤ j → j < idx.length → rankCmp idx ndl len j ≤ 0 →
      rankCmp idx ndl len i ≤ 0) :
    ∀ (d lo hi : Nat), hi - lo ≤ d → lo ≤ hi → hi ≤ idx.length →
      (∀ k, k < lo → rankCmp idx ndl len k ≤ 0) →
      (∀ k, hi ≤ k → k < idx.length → 0 < rankCmp idx ndl len k) →
      (∀ k, k < upper_bound_loop idx ndl len lo hi → rankCmp idx ndl len k ≤ 0) ∧
      (∀ k, upper_bound_loop idx ndl len lo hi ≤ k → k < idx.length →
        0 < rankCmp idx ndl len k) := by
  intro d
  induction d with
  | zero =>
    intro lo hi hd hlh hhn hlow hhigh
    rw [upper_bound_loop_eq, if_neg (by omega : ¬ lo < hi)]
    exact ⟨hlow, fun k hk hkn => hhigh k (by omega) hkn⟩
  | succ d ih =>
    intro lo hi hd hlh hhn hlow hhigh
    by_cases h : lo < hi
    · rw [upper_bound_loop_eq, if_pos h]
      by_cases hc : compare_suffix idx (idx.sa.getD (lo + (hi - lo) / 2) 0) ndl len ≤ 0
      · rw [if_pos hc]
        have hcm : rankCmp idx ndl len (lo + (hi - lo) / 2) ≤ 0 := hc
        apply ih (lo + (hi - lo) / 2 + 1) hi (by omega) (by omega) hhn
        · intro k hk
          exact hmono k (lo + (hi - lo) / 2) (by omega) (by omega) hcm
        · exact hhigh
      · rw [if_neg hc]
        have hcm : 0 < rankCmp idx ndl len (lo + (hi - lo) / 2) := Int.not_le.mp hc
        apply ih lo (lo + (hi - lo) / 2) (by omega) (by omega) (by omega) hlow
        intro k hk hkn
        by_contra hneg
        have hkle : rankCmp idx ndl len k ≤ 0 := by omega
        have := hmono (lo + (hi - lo) / 2) k hk hkn hkle
        omega
    · rw [upper_bound_loop_eq, if_neg h]
      exact ⟨hlow, fun k hk hkn => hhigh k (by omega) hkn⟩

theorem lower_bound_le_length (idx : SaisIndex) (ndl : List Nat) (len : Nat) :
    lower_bound idx ndl len ≤ idx.length :=
  (lower_bound_loop_le idx ndl len idx.length 0 idx.length (by omega) (by omega)).2

theorem upper_bound_le_length (idx : SaisIndex) (ndl : List Nat) (len : Nat) :
    upper_bound idx ndl len ≤ idx.length :=
  (upper_bound_loop_le idx ndl len idx.length 0 idx.length (by omega) (by omega)).2

theorem lower_bound_spec (idx : SaisIndex) (ndl : List Nat) (len : Nat)
    (hv : ValidIndex idx) (hlen : len ≤ ndl.length) :
    (∀ k, k < lower_bound idx ndl len → rankCmp idx ndl len k < 0) ∧
    (∀ k, lower_bound idx ndl len ≤ k → k < idx.length →
      0 ≤ rankCmp idx ndl len k) := by
  apply lower_bound_loop_spec idx ndl len
    (rankCmp_neg_mono idx ndl len hv hlen) idx.length 0 idx.length
    (by omega) (by omega) (le_refl _)
  · intro k hk
    exact absurd hk (Nat.not_lt_zero k)
  · intro k hk hkn
    exact absurd hkn (by omega)

theorem upper_bound_spec (idx : SaisIndex) (ndl : List Nat) (len : Nat)
    (hv : ValidIndex idx) (hlen : len ≤ ndl.length) :
    (∀ k, k < upper_bound idx ndl len → rankCmp idx ndl len k ≤ 0) ∧
    (∀ k, upper_bound idx ndl len ≤ k → k < idx.length →
      0 < rankCmp idx ndl len k) := by
  apply upper_bound_loop_spec idx ndl len
    (rankCmp_nonpos_mono idx ndl len hv hlen) idx.length 0 idx.length
    (by omega) (by omega) (le_refl _)
  · intro k hk
    exact absurd hk (Nat.not_lt_zero k)
  · intro k hk hkn
    exact absurd hkn (by omega)

theorem bounds_le (idx : SaisIndex) (ndl : List Nat) (len : Nat)
    (hv : ValidIndex idx) (hlen : len ≤ ndl.length) :
    lower_bound idx ndl len ≤ upper_bound idx ndl len := by
  by_contra hlt
  have hub : upper_bound idx ndl len < lower_bound idx ndl len := by omega
  have hubn : upper_bound idx ndl len < idx.length :=
    lt_of_lt_of_le hub (lower_bound_le_length idx ndl len)
  have h1 := (lower_bound_spec idx ndl len hv hlen).1 _ hub
  have h2 := (upper_bound_spec idx ndl len hv hlen).2 _ (le_refl _) hubn
  omega

/-- Within `[0, n)`, the ranks whose comparator value is 0 are exactly
the interval `[lower_bound, upper_bound)`. -/
theorem rank_zero_iff (idx : SaisIndex) (ndl : List Nat) (len : Nat)
    (hv : ValidIndex idx) (hlen : len ≤ ndl.length) (k : Nat) (hk : k < idx.length) :
    rankCmp idx ndl len k = 0 ↔
      lower_bound idx ndl len ≤ k ∧ k < upper_bound idx ndl len := by
  constructor
  · intro h0
    constructor
    · by_contra hlo
      have := (lower_bound_spec idx ndl len hv hlen).1 k (by omega)
      omega
    · by_contra hhi
      have := (upper_bound_spec idx ndl len hv hlen).2 k (by omega) hk
      omega
  · intro ⟨hlo, hhi⟩
    have h1 := (lower_bound_spec idx ndl len hv hlen).2 k hlo hk
    have h2 := (upper_bound_spec idx ndl len hv hlen).1 k hhi
    omega

/-! ### Counting occurrences -/

theorem countP_range_interval (lb ub : Nat) (hle : lb ≤ ub) :
    ∀ n, (List.range n).countP (fun k => decide (lb ≤ k ∧ k < ub)) =
      min ub n - min lb n := by
  intro n
  induction n with
  | zero => simp
  | succ n ih =>
    rw [List.range_succ, List.countP_append, ih]
    have hsing : (List.countP (fun k => decide (lb ≤ k ∧ k < ub)) [n]) =
        if lb ≤ n ∧ n < ub then 1 else 0 := by
      simp [List.countP_cons]
    rw [hsing]
    by_cases h : lb ≤ n ∧ n < ub
    · rw [if_pos h]
      omega
    · rw [if_neg h]
      omega

theorem countP_range_getD {α : Type} (Q : α → Bool) (d : α) :
    ∀ l : List α,
      (List.range l.length).countP (fun k => Q (l.getD k d)) = l.countP Q := by
  intro l
  induction l with
  | nil => simp
  | cons a l ih =>
    rw [List.length_cons, List.range_succ_eq_map, List.countP_cons,
      List.countP_map, List.countP_cons]
    simp only [Function.comp_def, List.getD_cons_succ, List.getD_cons_zero]
    rw [ih]

theorem bounds_diff_eq_countP (idx : SaisIndex) (ndl : List Nat) (len : Nat)
    (hv : ValidIndex idx) (hlen : len ≤ ndl.length) :
    upper_bound idx ndl len - lower_bound idx ndl len =
      (List.range idx.length).countP
        (fun k => decide (rankCmp idx ndl len k = 0)) := by
  have hcongr : (List.range idx.length).countP
      (fun k => decide (rankCmp idx ndl len k = 0)) =
      (List.range idx.length).countP
        (fun k => decide (lower_bound idx ndl len ≤ k ∧
          k < upper_bound idx ndl len)) := by
    apply List.countP_congr
    intro k hk
    rw [List.mem_range] at hk
    simp only [decide_eq_true_eq]
    exact rank_zero_iff idx ndl len hv hlen k hk
  rw [hcongr, countP_range_interval _ _ (bounds_le idx ndl len hv hlen)]
  have h1 := bounds_le idx ndl len hv hlen
  have h2 := upper_bound_le_length idx ndl len
  have h3 := lower_bound_le_length idx ndl len
  omega

theorem count_matches_eq_naive (idx : SaisIndex) (ndl : List Nat)
    (hv : ValidIndex idx) (hne : ndl ≠ []) :
    count_matches (some idx) (some ndl) (ndl.length : Int) =
      (naiveCount idx.data ndl : Int) := by
  have hpos : 0 < ndl.length := List.length_pos.2 hne
  have hguard : ¬ ((ndl.length : Int) ≤ 0) := by
    omega
  have htonat : ((ndl.length : Int)).toNat = ndl.length := Int.toNat_natCast _
  -- the Nat-level count identity
  have hlen : ndl.length ≤ ndl.length := le_refl _
  have hkey : upper_bound idx ndl ndl.length - lower_bound idx ndl ndl.length =
      naiveCount idx.data ndl := by
    rw [bounds_diff_eq_countP idx ndl ndl.length hv hlen]
    -- rewrite the rank comparator through csp
    have hstep1 : (List.range idx.length).countP
        (fun k => decide (rankCmp idx ndl ndl.length k = 0)) =
        (List.range idx.length).countP
          (fun k => decide (csp (idx.data.drop (idx.sa.getD k 0)) ndl = 0)) := by
      apply List.countP_congr
      intro k _
      simp only [decide_eq_true_eq]
      rw [rankCmp_eq_csp idx ndl ndl.length hv hlen, List.take_length]
    rw [hstep1]
    -- turn the rank enumeration into an enumeration of the suffix array
    have hlensa : idx.length = idx.sa.length := by
      rw [valid_sa_length idx hv, ← hv.1]
    rw [hlensa, countP_range_getD (fun p => decide (csp (idx.data.drop p) ndl = 0)) 0 idx.sa]
    -- permute the suffix array into the position enumeration
    rw [hv.2.1.countP_eq]
    -- identify with the naive scan
    unfold naiveCount
    rw [List.range_succ, List.countP_append]
    have hlast : (List.countP
        (fun p => decide (p + ndl.length ≤ idx.data.length ∧
          (idx.data.drop p).take ndl.length = ndl)) [idx.data.length]) = 0 := by
      have hfalse : ¬ (idx.data.length + ndl.length ≤ idx.data.length ∧
          (idx.data.drop idx.data.length).take ndl.length = ndl) :=
        fun h => absurd h.1 (by omega)
      simp only [List.countP_cons, List.countP_nil, decide_eq_false hfalse]
      simp
    rw [hlast]
    apply List.countP_congr
    intro p hp
    rw [List.mem_range] at hp
    simp only [decide_eq_true_eq]
    rw [csp_eq_zero_iff, List.length_drop]
    constructor
    · intro h
      exact ⟨by omega, h.2⟩
    · intro h
      exact ⟨by omega, h.2⟩
  -- lift to the Int-level exported function
  have hshow : count_matches (some idx) (some ndl) (ndl.length : Int) =
      if (ndl.length : Int) ≤ 0 then 0
      else (upper_bound idx ndl ((ndl.length : Int)).toNat : Int) -
        (lower_bound idx ndl ((ndl.length : Int)).toNat : Int) := rfl
  rw [hshow, if_neg hguard, htonat]
  have hle := bounds_le idx ndl ndl.length hv hlen
  omega

/-! ### The find_all enumeration loop -/

theorem find_all_loop_eq (idx : SaisIndex) (len : Nat) (s e : Int)
    (limit i hi : Nat) :
    find_all_loop idx len s e limit i hi =
      if i < hi then
        (if 0 < limit then
          (if s ≤ (idx.sa.getD i 0 : Int) ∧
              (idx.sa.getD i 0 : Int) + (len : Int) ≤ e then
            (idx.sa.getD i 0 : Int) ::
              find_all_loop idx len s e (limit - 1) (i + 1) hi
          else
            find_all_loop idx len s e limit (i + 1) hi)
        else [])
      else [] := by
  rw [find_all_loop]
  split <;> rfl

theorem find_all_loop_length (idx : SaisIndex) (len : Nat) (s e : Int) :
    ∀ (d limit i hi : Nat), hi - i ≤ d →
      (find_all_loop idx len s e limit i hi).length ≤ limit := by
  intro d
  induction d with
  | zero =>
    intro limit i hi hd
    rw [find_all_loop_eq, if_neg (by omega : ¬ i < hi)]
    simp
  | succ d ih =>
    intro limit i hi hd
    by_cases h : i < hi
    · rw [find_all_loop_eq, if_pos h]
      by_cases hl : 0 < limit
      · rw [if_pos hl]
        by_cases hc : s ≤ (idx.sa.getD i 0 : Int) ∧
            (idx.sa.getD i 0 : Int) + (len : Int) ≤ e
        · rw [if_pos hc]
          have := ih (limit - 1) (i + 1) hi (by omega)
          simp only [List.length_cons]
          omega
        · rw [if_neg hc]
          exact ih limit (i + 1) hi (by omega)
      · rw [if_neg hl]
        simp
    · rw [find_all_loop_eq, if_neg h]
      simp

theorem find_all_loop_sound (idx : SaisIndex) (len : Nat) (s e : Int) :
    ∀ (d limit i hi : Nat), hi - i ≤ d →
      ∀ q ∈ find_all_loop idx len s e limit i hi,
        s ≤ q ∧ q + (len : Int) ≤ e := by
  intro d
  induction d with
  | zero =>
    intro limit i hi hd q hq
    rw [find_all_loop_eq, if_neg (by omega : ¬ i < hi)] at hq
    simp at hq
  | succ d ih =>
    intro limit i hi hd q hq
    by_cases h : i < hi
    · rw [find_all_loop_eq, if_pos h] at hq
      by_cases hl : 0 < limit
      · rw [if_pos hl] at hq
        by_cases hc : s ≤ (idx.sa.getD i 0 : Int) ∧
            (idx.sa.getD i 0 : Int) + (len : Int) ≤ e
        · rw [if_pos hc] at hq
          rcases List.mem_cons.1 hq with rfl | hq
          · exact hc
          · exact ih (limit - 1) (i + 1) hi (by omega) q hq
        · rw [if_neg hc] at hq
          exact ih limit (i + 1) hi (by omega) q hq
      · rw [if_neg hl] at hq
        simp at hq
    · rw [find_all_loop_eq, if_neg h] at hq
      simp at hq

theorem find_all_loop_complete (idx : SaisIndex) (len : Nat) (s e : Int) :
    ∀ (d limit i hi : Nat), hi - i ≤ d →
      (find_all_loop idx len s e limit i hi).length < limit →
      ∀ k, i ≤ k → k < hi →
        s ≤ (idx.sa.getD k 0 : Int) →
        (idx.sa.getD k 0 : Int) + (len : Int) ≤ e →
        (idx.sa.getD k 0 : Int) ∈ find_all_loop idx len s e limit i hi := by
  intro d
  induction d with
  | zero =>
    intro limit i hi hd hlt k hik hkhi hs he
    exact absurd hkhi (by omega)
  | succ d ih =>
    intro limit i hi hd hlt k hik hkhi hs he
    have h : i < hi := by omega
    rw [find_all_loop_eq, if_pos h] at hlt ⊢
    have hl : 0 < limit := by
      by_cases hl : 0 < limit
      · exact hl
      · rw [if_neg hl] at hlt
        simp at hlt
        omega
    rw [if_pos hl] at hlt ⊢
    by_cases hc : s ≤ (idx.sa.getD i 0 : Int) ∧
        (idx.sa.getD i 0 : Int) + (len : Int) ≤ e
    · rw [if_pos hc] at hlt ⊢
      rcases Nat.eq_or_lt_of_le hik with rfl | hik
      · exact List.mem_cons_self _ _
      · apply List.mem_cons_of_mem
        apply ih (limit - 1) (i + 1) hi (by omega) _ k hik hkhi hs he
        simp only [List.length_cons] at hlt
        omega
    · rw [if_neg hc] at hlt ⊢
      rcases Nat.eq_or_lt_of_le hik with rfl | hik
      · exact absurd ⟨hs, he⟩ hc
      · exact ih limit (i + 1) hi (by omega) hlt k hik hkhi hs he

/-- Reduction of `find_all` past its degenerate-input guard, for non-null
arguments. -/
theorem find_all_eq (idx : SaisIndex) (ndl : List Nat) (nl s e mc cap : Int)
    (hnl : ¬ nl ≤ 0) (hcap : ¬ cap ≤ 0) :
    find_all (some idx) (some ndl) nl s e mc true cap =
      if (if s < 0 then 0 else s) ≥
          (if e < 0 ∨ (idx.length : Int) < e then (idx.length : Int) else e) then []
      else
        find_all_loop idx nl.toNat (if s < 0 then 0 else s)
          (if e < 0 ∨ (idx.length : Int) < e then (idx.length : Int) else e)
          (if 0 < mc ∧ mc < cap then mc else cap).toNat
          (lower_bound idx ndl nl.toNat) (upper_bound idx ndl nl.toNat) := by
  have hguard : ¬ (nl ≤ 0 ∨ (true : Bool) = false ∨ cap ≤ 0) := by
    push_neg
    exact ⟨by omega, by simp, by omega⟩
  simp only [find_all]
  rw [if_neg hguard]

/-! ### Claims -/

/-- C1: for every index whose suffix array is a valid sorted permutation of
`[0, n)` and every needle with `needle_len > 0` (the needle being the byte
sequence of that length), `count_matches` returns exactly the number of
starting positions found by a naive linear scan, counting overlapping
occurrences separately. -/
theorem claim_C1_count_eq_naive (idx : SaisIndex) (ndl : List Nat)
    (needle_len : Int) (hv : ValidIndex idx)
    (hlen : needle_len = (ndl.length : Int)) (hpos : 0 < needle_len) :
    count_matches (some idx) (some ndl) needle_len =
      (naiveCount idx.data ndl : Int) := by
  subst hlen
  have hne : ndl ≠ [] := by
    intro h
    subst h
    simp at hpos
  exact count_matches_eq_naive idx ndl hv hne

/-- Witness for C1 on the `"banana"` index and needle `"ana"`. -/
theorem claim_C1_witness :
    count_matches (some bananaIdx) (some [97, 110, 97]) 3 =
      (naiveCount bananaIdx.data [97, 110, 97] : Int) :=
  claim_C1_count_eq_naive bananaIdx [97, 110, 97] 3 (by decide) (by decide)
    (by decide)

/-- C2: for a valid sorted index and a needle of positive declared length,
`lower_bound ≤ upper_bound`, every rank in `[lower_bound, upper_bound)`
compares equal (0) to the needle, and every rank of `[0, n)` outside that
interval compares non-zero — so the interval is exactly the contiguous
range of match-compatible suffix ranks. -/
theorem claim_C2_bounds (idx : SaisIndex) (ndl : List Nat) (needle_len : Nat)
    (hv : ValidIndex idx) (hlen : needle_len = ndl.length)
    (hpos : 0 < needle_len) :
    lower_bound idx ndl needle_len ≤ upper_bound idx ndl needle_len ∧
    (∀ i, lower_bound idx ndl needle_len ≤ i →
      i < upper_bound idx ndl needle_len →
      compare_suffix idx (idx.sa.getD i 0) ndl needle_len = 0) ∧
    (∀ i, i < idx.length →
      (i < lower_bound idx ndl needle_len ∨ upper_bound idx ndl needle_len ≤ i) →
      compare_suffix idx (idx.sa.getD i 0) ndl needle_len ≠ 0) := by
  have hle : needle_len ≤ ndl.length := by omega
  refine ⟨bounds_le idx ndl needle_len hv hle, ?_, ?_⟩
  · intro i hlo hhi
    have hi : i < idx.length :=
      lt_of_lt_of_le hhi (upper_bound_le_length idx ndl needle_len)
    exact (rank_zero_iff idx ndl needle_len hv hle i hi).2 ⟨hlo, hhi⟩
  · intro i hi hout h0
    have := (rank_zero_iff idx ndl needle_len hv hle i hi).1 h0
    omega

/-- Witness for C2 on the `"banana"` index and needle `"ana"`. -/
theorem claim_C2_witness :
    lower_bound bananaIdx [97, 110, 97] 3 ≤ upper_bound bananaIdx [97, 110, 97] 3 :=
  (claim_C2_bounds bananaIdx [97, 110, 97] 3 (by decide) (by decide) (by decide)).1

/-- C4: for every index (with a consistent stored length), position in
`[0, n)` and needle of positive declared length, `compare_suffix` returns a
value in `{-1, 0, +1}`; it returns the sign of the byte-wise comparison of
the first `min(needle_len, n - pos)` bytes when that is non-zero, and
otherwise `-1` exactly when `n - pos < needle_len` and `0` exactly when
`n - pos ≥ needle_len`. -/
theorem claim_C4_compare_spec (idx : SaisIndex) (pos : Nat) (ndl : List Nat)
    (needle_len : Nat) (hn : idx.length = idx.data.length)
    (hposn : pos < idx.length) (hlen : needle_len = ndl.length)
    (hpos : 0 < needle_len) :
    (compare_suffix idx pos ndl needle_len = -1 ∨
     compare_suffix idx pos ndl needle_len = 0 ∨
     compare_suffix idx pos ndl needle_len = 1) ∧
    (listCmp ((idx.data.drop pos).take (min needle_len (idx.length - pos)))
        (ndl.take (min needle_len (idx.length - pos))) ≠ 0 →
      compare_suffix idx pos ndl needle_len =
        listCmp ((idx.data.drop pos).take (min needle_len (idx.length - pos)))
          (ndl.take (min needle_len (idx.length - pos)))) ∧
    (listCmp ((idx.data.drop pos).take (min needle_len (idx.length - pos)))
        (ndl.take (min needle_len (idx.length - pos))) = 0 →
      ((idx.length - pos < needle_len →
          compare_suffix idx pos ndl needle_len = -1) ∧
       (needle_len ≤ idx.length - pos →
          compare_suffix idx pos ndl needle_len = 0))) := by
  have hm : (if needle_len < idx.length - pos then needle_len
      else idx.length - pos) = min needle_len (idx.length - pos) := by
    by_cases h : needle_len < idx.length - pos <;> simp [h] <;> omega
  have hml : min needle_len (idx.length - pos) ≤ (idx.data.drop pos).length := by
    rw [List.length_drop, ← hn]
    omega
  have hml2 : min needle_len (idx.length - pos) ≤ ndl.length := by
    omega
  have heq : compare_suffix idx pos ndl needle_len =
      if listCmp ((idx.data.drop pos).take (min needle_len (idx.length - pos)))
          (ndl.take (min needle_len (idx.length - pos))) ≠ 0 then
        listCmp ((idx.data.drop pos).take (min needle_len (idx.length - pos)))
          (ndl.take (min needle_len (idx.length - pos)))
      else if idx.length - pos < needle_len then -1 else 0 := by
    show (if memcmp (idx.data.drop pos) ndl
        (if needle_len < idx.length - pos then needle_len
          else idx.length - pos) ≠ 0 then
        memcmp (idx.data.drop pos) ndl
          (if needle_len < idx.length - pos then needle_len
            else idx.length - pos)
      else if idx.length - pos < needle_len then -1 else 0) = _
    rw [hm, memcmp_eq_listCmp _ _ _ hml hml2]
  rw [heq]
  rcases listCmp_values ((idx.data.drop pos).take (min needle_len (idx.length - pos)))
      (ndl.take (min needle_len (idx.length - pos))) with h1 | h1 | h1
  · rw [h1]
    norm_num
  · rw [h1]
    rw [if_neg (by norm_num : ¬ ((0 : Int) ≠ 0))]
    refine ⟨?_, fun hc => absurd rfl hc, fun _ => ⟨fun h2 => if_pos h2, fun h2 => ?_⟩⟩
    · by_cases h2 : idx.length - pos < needle_len
      · rw [if_pos h2]
        norm_num
      · rw [if_neg h2]
        norm_num
    · rw [if_neg (by omega : ¬ idx.length - pos < needle_len)]
  · rw [h1]
    norm_num

/-- Witness for C4 at a concrete index and needle. -/
theorem claim_C4_witness :
    compare_suffix bananaIdx 5 [97, 110] 2 = -1 ∨
    compare_suffix bananaIdx 5 [97, 110] 2 = 0 ∨
    compare_suffix bananaIdx 5 [97, 110] 2 = 1 :=
  (claim_C4_compare_spec bananaIdx 5 [97, 110] 2 (by decide) (by decide)
    (by decide) (by decide)).1

/-- C7: degenerate inputs resolve to safe defaults: `count_matches`
returns 0 on a null index, null needle, or non-positive needle length;
`find_all` returns an empty result (count 0, nothing written) on a null
index, null needle, non-positive needle length, null result buffer, or
non-positive capacity; `create_index` with non-positive length returns a
null handle. -/
theorem claim_C7_degenerate :
    (∀ (ndl : Option (List Nat)) (nl : Int), count_matches none ndl nl = 0) ∧
    (∀ (idx : Option SaisIndex) (nl : Int), count_matches idx none nl = 0) ∧
    (∀ (idx : SaisIndex) (ndl : List Nat) (nl : Int), nl ≤ 0 →
      count_matches (some idx) (some ndl) nl = 0) ∧
    (∀ (ndl : Option (List Nat)) (nl s e mc cap : Int) (rp : Bool),
      find_all none ndl nl s e mc rp cap = []) ∧
    (∀ (idx : Option SaisIndex) (nl s e mc cap : Int) (rp : Bool),
      find_all idx none nl s e mc rp cap = []) ∧
    (∀ (idx : SaisIndex) (ndl : List Nat) (nl s e mc cap : Int) (rp : Bool),
      nl ≤ 0 → find_all (some idx) (some ndl) nl s e mc rp cap = []) ∧
    (∀ (idx : SaisIndex) (ndl : List Nat) (nl s e mc cap : Int),
      find_all (some idx) (some ndl) nl s e mc false cap = []) ∧
    (∀ (idx : SaisIndex) (ndl : List Nat) (nl s e mc cap : Int) (rp : Bool),
      cap ≤ 0 → find_all (some idx) (some ndl) nl s e mc rp cap = []) ∧
    (∀ (sais : List Nat → Option (List Nat)) (buffer : List Nat)
      (length : Int), length ≤ 0 → create_index sais buffer length = none) := by
  refine ⟨?_, ?_, ?_, ?_, ?_, ?_, ?_, ?_, ?_⟩
  · intro ndl nl
    cases ndl <;> rfl
  · intro idx nl
    cases idx <;> rfl
  · intro idx ndl nl h
    simp only [count_matches]
    rw [if_pos h]
  · intro ndl nl s e mc cap rp
    cases ndl <;> rfl
  · intro idx nl s e mc cap rp
    cases idx <;> rfl
  · intro idx ndl nl s e mc cap rp h
    simp only [find_all]
    rw [if_pos (Or.inl h)]
  · intro idx ndl nl s e mc cap
    simp only [find_all]
    rw [if_pos (Or.inr (Or.inl trivial))]
  · intro idx ndl nl s e mc cap rp h
    simp only [find_all]
    rw [if_pos (Or.inr (Or.inr h))]
  · intro sais buffer length h
    simp only [create_index]
    rw [if_pos h]

/-- Witness for C7 at concrete degenerate inputs. -/
theorem claim_C7_witness :
    count_matches none (some [1]) 1 = 0 ∧
    count_matches (some bananaIdx) none 1 = 0 ∧
    count_matches (some bananaIdx) (some [1]) (-1) = 0 ∧
    find_all none (some [1]) 1 0 6 0 true 4 = [] ∧
    find_all (some bananaIdx) none 1 0 6 0 true 4 = [] ∧
    find_all (some bananaIdx) (some [1]) 0 0 6 0 true 4 = [] ∧
    find_all (some bananaIdx) (some [1]) 1 0 6 0 false 4 = [] ∧
    find_all (some bananaIdx) (some [1]) 1 0 6 0 true 0 = [] ∧
    create_index (fun _ => none) [] (-2) = none :=
  ⟨claim_C7_degenerate.1 (some [1]) 1,
   claim_C7_degenerate.2.1 (some bananaIdx) 1,
   claim_C7_degenerate.2.2.1 bananaIdx [1] (-1) (by decide),
   claim_C7_degenerate.2.2.2.1 (some [1]) 1 0 6 0 4 true,
   claim_C7_degenerate.2.2.2.2.1 (some bananaIdx) 1 0 6 0 4 true,
   claim_C7_degenerate.2.2.2.2.2.1 bananaIdx [1] 0 0 6 0 4 true (by decide),
   claim_C7_degenerate.2.2.2.2.2.2.1 bananaIdx [1] 1 0 6 0 4,
   claim_C7_degenerate.2.2.2.2.2.2.2.1 bananaIdx [1] 1 0 6 0 0 true (by decide),
   claim_C7_degenerate.2.2.2.2.2.2.2.2 (fun _ => none) [] (-2) (by decide)⟩

/-- C9: the binary searches are total functions (their loops are
well-founded on `hi - lo`, which strictly decreases every iteration, as
established by the accepted `termination_by` measures of
`lower_bound_loop` and `upper_bound_loop`), and both return a value in
`[0, n]` for every index and needle. -/
theorem claim_C9_bounds_in_range (idx : SaisIndex) (ndl : List Nat)
    (needle_len : Nat) :
    lower_bound idx ndl needle_len ≤ idx.length ∧
    upper_bound idx ndl needle_len ≤ idx.length :=
  ⟨lower_bound_le_length idx ndl needle_len,
   upper_bound_le_length idx ndl needle_len⟩

/-- C10: `get_index_length` returns 0 on a null handle, the stored buffer
length otherwise, and that length is strictly positive for every index
successfully built by `create_index`. -/
theorem claim_C10_get_index_length :
    get_index_length none = 0 ∧
    (∀ idx : SaisIndex, get_index_length (some idx) = (idx.length : Int)) ∧
    (∀ (sais : List Nat → Option (List Nat)) (buffer : List Nat)
      (length : Int) (idx : SaisIndex),
      create_index sais buffer length = some idx →
        0 < get_index_length (some idx)) := by
  refine ⟨rfl, fun idx => rfl, ?_⟩
  intro sais buffer length idx h
  simp only [create_index] at h
  by_cases hl : length ≤ 0
  · rw [if_pos hl] at h
    exact absurd h (by simp)
  · rw [if_neg hl] at h
    cases hs : sais (buffer.take length.toNat) with
    | none =>
      rw [hs] at h
      simp at h
    | some sa =>
      rw [hs] at h
      injection h with h2
      subst h2
      show (0 : Int) < (length.toNat : Int)
      omega

/-- Witness for C10 at a concrete successful build. -/
theorem claim_C10_witness :
    create_index (fun _ => some [0]) [7] 1 = some ⟨[7], [0], 1⟩ ∧
    0 < get_index_length (some (⟨[7], [0], 1⟩ : SaisIndex)) :=
  ⟨by decide,
   claim_C10_get_index_length.2.2 (fun _ => some [0]) [7] 1 ⟨[7], [0], 1⟩
     (by decide)⟩

/-- The number of results `find_all` writes never exceeds the limit
computed by the code. -/
theorem find_all_length_le (idx : SaisIndex) (ndl : List Nat)
    (nl s e mc cap : Int) (hnl : ¬ nl ≤ 0) (hcap : ¬ cap ≤ 0) :
    (find_all (some idx) (some ndl) nl s e mc true cap).length ≤
      (if 0 < mc ∧ mc < cap then mc else cap).toNat := by
  rw [find_all_eq idx ndl nl s e mc cap hnl hcap]
  by_cases hse : (if s < 0 then 0 else s) ≥
      (if e < 0 ∨ (idx.length : Int) < e then (idx.length : Int) else e)
  · rw [if_pos hse]
    simp
  · rw [if_neg hse]
    exact find_all_loop_length idx nl.toNat _ _
      (upper_bound idx ndl nl.toNat)
      (if 0 < mc ∧ mc < cap then mc else cap).toNat
      (lower_bound idx ndl nl.toNat) (upper_bound idx ndl nl.toNat) (by omega)

/-- C5: for every `find_all` call with positive capacity that passes the
degenerate-input checks, the returned count `r` (the number of result
slots written, i.e. the length of the written list) satisfies
`0 ≤ r ≤ limit`, with `limit = min(max_count, capacity)` when
`max_count > 0` and `limit = capacity` otherwise; only the first `r` slots
are written since the written list has length `r`. -/
theorem claim_C5_limit (idx : SaisIndex) (ndl : List Nat)
    (nl s e mc cap : Int) (hnl : 0 < nl) (hcap : 0 < cap) :
    0 ≤ ((find_all (some idx) (some ndl) nl s e mc true cap).length : Int) ∧
    ((find_all (some idx) (some ndl) nl s e mc true cap).length : Int) ≤
      (if 0 < mc then min mc cap else cap) := by
  constructor
  · exact Int.natCast_nonneg _
  · have h1 := find_all_length_le idx ndl nl s e mc cap (by omega) (by omega)
    have h2 : ((if 0 < mc ∧ mc < cap then mc else cap).toNat : Int) ≤
        (if 0 < mc then min mc cap else cap) := by
      split_ifs <;> omega
    omega

/-- Witness for C5 at a concrete call. -/
theorem claim_C5_witness :
    0 ≤ ((find_all (some bananaIdx) (some [97]) 1 0 6 2 true 4).length : Int) ∧
    ((find_all (some bananaIdx) (some [97]) 1 0 6 2 true 4).length : Int) ≤
      (if (0 : Int) < 2 then min 2 4 else 4) :=
  claim_C5_limit bananaIdx [97] 1 0 6 2 4 (by decide) (by decide)

/-- `find_all` on non-null index and needle returns the empty result when
the degenerate-input guard fires. -/
theorem find_all_guard (idx : SaisIndex) (ndl : List Nat)
    (nl s e mc cap : Int) (rp : Bool) (h : nl ≤ 0 ∨ rp = false ∨ cap ≤ 0) :
    find_all (some idx) (some ndl) nl s e mc rp cap = [] := by
  simp only [find_all]
  rcases h with h | h | h
  · rw [if_pos (Or.inl h)]
  · subst h
    rw [if_pos (Or.inr (Or.inl rfl))]
  · rw [if_pos (Or.inr (Or.inr h))]

/-- C6: `find_all` normalizes its range before filtering — an `end` value
below 0 or above `n` is replaced by `n`, a negative `start` is replaced by
0 (so the call equals the call on the normalized range) — and whenever
`start ≥ end` after normalization the result is empty, for every index and
needle. -/
theorem claim_C6_normalization (idx : SaisIndex) (needle : Option (List Nat))
    (nl s e mc cap : Int) (rp : Bool) :
    (find_all (some idx) needle nl s e mc rp cap =
      find_all (some idx) needle nl (if s < 0 then 0 else s)
        (if e < 0 ∨ (idx.length : Int) < e then (idx.length : Int) else e)
        mc rp cap) ∧
    ((if s < 0 then 0 else s) ≥
        (if e < 0 ∨ (idx.length : Int) < e then (idx.length : Int) else e) →
      find_all (some idx) needle nl s e mc rp cap = []) := by
  cases needle with
  | none => exact ⟨rfl, fun _ => rfl⟩
  | some ndl =>
    by_cases hguard : nl ≤ 0 ∨ rp = false ∨ cap ≤ 0
    · refine ⟨?_, fun _ => find_all_guard idx ndl nl s e mc cap rp hguard⟩
      rw [find_all_guard idx ndl nl s e mc cap rp hguard,
        find_all_guard idx ndl nl _ _ mc cap rp hguard]
    · push_neg at hguard
      obtain ⟨hnl, hrp, hcap⟩ := hguard
      have hrpt : rp = true := by
        cases rp
        · exact absurd rfl hrp
        · rfl
      subst hrpt
      have hS : (if (if s < 0 then 0 else s) < 0 then 0
          else (if s < 0 then 0 else s)) = (if s < 0 then 0 else s) := by
        split_ifs <;> omega
      have hE : (if (if e < 0 ∨ (idx.length : Int) < e then (idx.length : Int)
            else e) < 0 ∨
          (idx.length : Int) <
            (if e < 0 ∨ (idx.length : Int) < e then (idx.length : Int) else e)
          then (idx.length : Int)
          else (if e < 0 ∨ (idx.length : Int) < e then (idx.length : Int)
            else e)) =
          (if e < 0 ∨ (idx.length : Int) < e then (idx.length : Int) else e) := by
        split_ifs <;> omega
      constructor
      · rw [find_all_eq idx ndl nl s e mc cap (by omega) (by omega),
          find_all_eq idx ndl nl _ _ mc cap (by omega) (by omega), hS, hE]
      · intro hse
        rw [find_all_eq idx ndl nl s e mc cap (by omega) (by omega),
          if_pos hse]

/-- Witness for C6: a call whose normalized range is empty returns the
empty result. -/
theorem claim_C6_witness :
    find_all (some bananaIdx) (some [97]) 1 5 2 0 true 4 = [] :=
  (claim_C6_normalization bananaIdx (some [97]) 1 5 2 0 4 true).2 (by decide)

/-- C8: concrete scenarios — on any valid sorted index over `"banana"`,
`count("ana") = 2` and `count("na") = 2`; on any valid sorted index over
`"aaaa"`, `count("aa") = 3` (overlapping occurrences at 0, 1, 2). -/
theorem claim_C8_scenarios :
    (∀ idx : SaisIndex, ValidIndex idx → idx.data = bananaData →
      count_matches (some idx) (some [97, 110, 97]) 3 = 2 ∧
      count_matches (some idx) (some [110, 97]) 2 = 2) ∧
    (∀ idx : SaisIndex, ValidIndex idx → idx.data = aaaaData →
      count_matches (some idx) (some [97, 97]) 2 = 3) := by
  constructor
  · intro idx hv hdata
    constructor
    · have h3 : (3 : Int) = (([97, 110, 97] : List Nat).length : Int) := by
        decide
      rw [h3, count_matches_eq_naive idx [97, 110, 97] hv (by decide), hdata]
      decide
    · have h2 : (2 : Int) = (([110, 97] : List Nat).length : Int) := by
        decide
      rw [h2, count_matches_eq_naive idx [110, 97] hv (by decide), hdata]
      decide
  · intro idx hv hdata
    have h2 : (2 : Int) = (([97, 97] : List Nat).length : Int) := by
      decide
    rw [h2, count_matches_eq_naive idx [97, 97] hv (by decide), hdata]
    decide

/-- Witness for C8 on the concrete `"banana"` and `"aaaa"` indices. -/
theorem claim_C8_witness :
    count_matches (some bananaIdx) (some [97, 110, 97]) 3 = 2 ∧
    count_matches (some bananaIdx) (some [110, 97]) 2 = 2 ∧
    count_matches (some aaaaIdx) (some [97, 97]) 2 = 3 :=
  ⟨(claim_C8_scenarios.1 bananaIdx (by decide) rfl).1,
   (claim_C8_scenarios.1 bananaIdx (by decide) rfl).2,
   claim_C8_scenarios.2 aaaaIdx (by decide) rfl⟩

/-- C3: for a valid sorted index, a needle of positive length and positive
capacity, `find_all` is sound — every returned position `p` satisfies
`normStart ≤ p` and `p + needle_len ≤ normEnd` for the normalized range — and
complete — every occurrence of the needle within those bounds is returned,
unless the effective limit (`min(max_count, capacity)` when
`max_count > 0`, else `capacity`) was reached first. -/
theorem claim_C3_find_all_sound_complete (idx : SaisIndex) (ndl : List Nat)
    (nl s e mc cap : Int) (hv : ValidIndex idx)
    (hlen : nl = (ndl.length : Int)) (hpos : 0 < nl) (hcap : 0 < cap) :
    (∀ q ∈ find_all (some idx) (some ndl) nl s e mc true cap,
      (if s < 0 then 0 else s) ≤ q ∧
      q + nl ≤
        (if e < 0 ∨ (idx.length : Int) < e then (idx.length : Int) else e)) ∧
    (((find_all (some idx) (some ndl) nl s e mc true cap).length : Int) <
        (if 0 < mc then min mc cap else cap) →
      ∀ p : Nat, occursAt idx.data ndl p →
        (if s < 0 then 0 else s) ≤ (p : Int) →
        (p : Int) + nl ≤
          (if e < 0 ∨ (idx.length : Int) < e then (idx.length : Int) else e) →
        (p : Int) ∈ find_all (some idx) (some ndl) nl s e mc true cap) := by
  have hcast : ((nl.toNat : Nat) : Int) = nl := Int.toNat_of_nonneg (by omega)
  have hnlen : nl.toNat = ndl.length := by omega
  rw [find_all_eq idx ndl nl s e mc cap (by omega) (by omega)]
  set S := (if s < 0 then 0 else s) with hSdef
  set E := (if e < 0 ∨ (idx.length : Int) < e then (idx.length : Int) else e)
    with hEdef
  set L := (if 0 < mc ∧ mc < cap then mc else cap) with hLdef
  have hLspec : ((L.toNat : Nat) : Int) = (if 0 < mc then min mc cap else cap) := by
    rw [hLdef]
    split_ifs <;> omega
  by_cases hse : S ≥ E
  · rw [if_pos hse]
    refine ⟨fun q hq => absurd hq (List.not_mem_nil q),
      fun _ p _ hs he => ?_⟩
    exfalso
    omega
  · rw [if_neg hse]
    constructor
    · intro q hq
      have hsound := find_all_loop_sound idx nl.toNat S E
        (upper_bound idx ndl nl.toNat) L.toNat
        (lower_bound idx ndl nl.toNat) (upper_bound idx ndl nl.toNat)
        (by omega) q hq
      rw [hcast] at hsound
      exact hsound
    · intro hlt p hocc hs he
      have hnln : 0 < ndl.length := by omega
      have hpn : p < idx.data.length := by
        have := hocc.1
        omega
      have hpsa : p ∈ idx.sa := hv.2.1.mem_iff.2 (List.mem_range.2 hpn)
      obtain ⟨k, hk, hkp⟩ := List.mem_iff_getElem.1 hpsa
      have hgetD : idx.sa.getD k 0 = p := by
        rw [List.getD_eq_getElem idx.sa 0 hk]
        exact hkp
      have hkn : k < idx.length := by
        have h1 := valid_sa_length idx hv
        have h2 := hv.1
        omega
      have hrk : rankCmp idx ndl nl.toNat k = 0 := by
        rw [rankCmp_eq_csp idx ndl nl.toNat hv (by omega), hnlen,
          List.take_length, hgetD, csp_eq_zero_iff]
        refine ⟨?_, hocc.2⟩
        rw [List.length_drop]
        have := hocc.1
        omega
      have hrange := (rank_zero_iff idx ndl nl.toNat hv (by omega) k hkn).1 hrk
      have hlt2 : (find_all_loop idx nl.toNat S E L.toNat
          (lower_bound idx ndl nl.toNat)
          (upper_bound idx ndl nl.toNat)).length < L.toNat := by
        omega
      have hmem := find_all_loop_complete idx nl.toNat S E
        (upper_bound idx ndl nl.toNat) L.toNat
        (lower_bound idx ndl nl.toNat) (upper_bound idx ndl nl.toNat)
        (by omega) hlt2 k hrange.1 hrange.2
        (by rw [hgetD]; exact hs) (by rw [hgetD, hcast]; exact he)
      rw [hgetD] at hmem
      exact hmem

/-- Witness for C3 on the `"banana"` index, needle `"ana"`, full range. -/
theorem claim_C3_witness :
    (∀ q ∈ find_all (some bananaIdx) (some [97, 110, 97]) 3 0 6 10 true 16,
      (0 : Int) ≤ q ∧ q + 3 ≤ 6) ∧
    (((find_all (some bananaIdx) (some [97, 110, 97]) 3 0 6 10 true 16).length :
        Int) < (if (0 : Int) < 10 then min 10 16 else 16) →
      ∀ p : Nat, occursAt bananaIdx.data [97, 110, 97] p →
        (0 : Int) ≤ (p : Int) → (p : Int) + 3 ≤ 6 →
        (p : Int) ∈ find_all (some bananaIdx) (some [97, 110, 97]) 3 0 6 10 true 16) :=
  claim_C3_find_all_sound_complete bananaIdx [97, 110, 97] 3 0 6 10 16
    (by decide) (by decide) (by decide) (by decide)

end LibsaisWasm
